import Mathlib

/-!
Verification of the AI-SOC MITRE ATT&CK ingestion and serving pipeline.

The definitions below are a shallow embedding of the Python sources
`scripts/process_mitre.py`, `scripts/audit_mitre.py` and
`backend/rag_chat.py`.  JSON objects are modelled as structures whose
optional fields are `Option`-valued (a missing dictionary key is `none`,
matching the Python `dict.get` default); the external embedding service is
modelled as an oracle `String → Option V` (`none` is a failed call); the
vector store is modelled as a function returning ranked results.
-/

namespace AISOC

/-- One entry of the `external_references` list of an object
(`{source_name, external_id, url}` mapping; any key may be absent). -/
structure ExternalRef where
  source_name : Option String
  external_id : Option String
  url : Option String
deriving DecidableEq

/-- A raw knowledge object of the corpus (one element of the top-level
`objects` list), restricted to the fields the pipeline reads.
`id` is the native STIX identifier. -/
structure KnowledgeObject where
  id : String
  type : Option String
  name : Option String
  description : Option String
  revoked : Bool
  x_mitre_deprecated : Bool
  x_mitre_platforms : Option (List String)
  x_mitre_detection : Option String
  x_mitre_permissions_required : Option (List String)
  external_references : List ExternalRef
deriving DecidableEq

/-- The set `ALLOWED_TYPES` from `process_mitre.py` (identical set in
`audit_mitre.py`). -/
def ALLOWED_TYPES : List String :=
  ["attack-pattern", "malware", "tool", "intrusion-set", "course-of-action", "campaign"]

/-- Membership test `obj.get("type") in ALLOWED_TYPES`: a missing `type` is not in the
allow-set. -/
def typeAllowed (o : KnowledgeObject) : Bool :=
  match o.type with
  | some t => ALLOWED_TYPES.contains t
  | none => false

/-- The filter loop of `load_mitre_data` (`process_mitre.py`, lines 30-42):
skip objects whose type is outside the allow-set, then skip objects with a
truthy `revoked` or `x_mitre_deprecated` flag, keeping input order. -/
def load_mitre_data : List KnowledgeObject → List KnowledgeObject
  | [] => []
  | o :: rest =>
    if typeAllowed o = false then load_mitre_data rest
    else if o.revoked || o.x_mitre_deprecated then load_mitre_data rest
    else o :: load_mitre_data rest

/-- Function `extract_mitre_id` (`process_mitre.py`, lines 44-49): return
`external_id` (default `"UNKNOWN"`) of the first reference whose
`source_name` equals `"mitre-attack"`; `"UNKNOWN"` when none matches. -/
def extract_mitre_id (external_references : List ExternalRef) : String :=
  match external_references.find? (fun r => r.source_name == some "mitre-attack") with
  | some r => r.external_id.getD "UNKNOWN"
  | none => "UNKNOWN"

/-- Function `normalize_list` (`process_mitre.py`, lines 51-55) on the values the
pipeline feeds it: a list becomes a comma-joined string, an absent value
becomes the empty string. -/
def normalize_list : Option (List String) → String
  | some l => String.intercalate ", " l
  | none => ""

/-- Rendering of an optional `type` as the Python `str()` inside f-strings
(`None` prints as `"None"`). -/
def typeStr (o : KnowledgeObject) : String :=
  match o.type with
  | some t => t
  | none => "None"

/-- The header line of `generate_document_text`:
`f"{mitre_id}: {name} ({obj_type})"`. -/
def headerOf (o : KnowledgeObject) (mitre_id : String) : String :=
  mitre_id ++ ": " ++ o.name.getD "Unknown" ++ " (" ++ typeStr o ++ ")"

/-- The underline `"=" * len(header)`. -/
def underlineOf (header : String) : String :=
  String.mk (List.replicate header.length '=')

/-- Function `generate_document_text` (`process_mitre.py`, lines 57-87). -/
def generate_document_text (obj : KnowledgeObject) (mitre_id : String) : String :=
  let description := obj.description.getD ""
  let platforms := normalize_list obj.x_mitre_platforms
  let detection := obj.x_mitre_detection.getD ""
  let permissions := normalize_list obj.x_mitre_permissions_required
  let header := headerOf obj mitre_id
  let text_parts :=
    [header, underlineOf header, "Description: " ++ description]
    ++ (if platforms ≠ "" then ["Platforms: " ++ platforms] else [])
    ++ (if permissions ≠ "" then ["Permissions Required: " ++ permissions] else [])
    ++ (if detection ≠ "" then ["Detection: " ++ detection] else [])
  String.intercalate "\n\n" text_parts

/-- The metadata record built in `main` (`process_mitre.py`, lines 125-132). -/
structure Metadata where
  mitre_id : String
  name : String
  type : String
  url : String
  platforms : String
  deprecated : String
deriving DecidableEq

/-- The expression `next((ref.get("url", "") for ref in refs if
ref.get("source_name") == "mitre-attack"), "")`. -/
def urlOf (o : KnowledgeObject) : String :=
  match o.external_references.find? (fun r => r.source_name == some "mitre-attack") with
  | some r => r.url.getD ""
  | none => ""

/-- Metadata construction (`process_mitre.py`, lines 125-132);
`str(obj.get("x_mitre_deprecated", False))` renders the flag as
`"True"`/`"False"`. -/
def metadataOf (o : KnowledgeObject) (mitre_id : String) : Metadata :=
  ⟨mitre_id, o.name.getD "Unknown", typeStr o, urlOf o,
    normalize_list o.x_mitre_platforms,
    if o.x_mitre_deprecated then "True" else "False"⟩

/-- The resolved domain id of an object (`process_mitre.py`, lines 117-119):
the extracted MITRE id, or the native id when extraction yields
`"UNKNOWN"`. -/
def domainOf (o : KnowledgeObject) : String :=
  let m := extract_mitre_id o.external_references
  if m = "UNKNOWN" then o.id else m

/-- The document text handed to the embedding service for an object. -/
def textOf (o : KnowledgeObject) : String :=
  generate_document_text o (domainOf o)

/-- The accumulator state of the ingestion loop in `main`
(`process_mitre.py`, lines 103-106 plus the reported skips). -/
structure IngestState (V : Type) where
  documents : List String
  metadatas : List Metadata
  ids : List String
  embeddings : List V
  skips : List String
deriving DecidableEq

/-- One iteration of the ingestion loop (`process_mitre.py`,
lines 115-161): resolve the domain id, build metadata and document text,
call the embedding oracle; on failure report a skip with the domain id and
keep the state; on success append document, metadata, embedding and the
collision-resolved unique id (`uniq_id` logic of lines 155-160). -/
def ingestStep {V : Type} (emb : String → Option V)
    (st : IngestState V) (obj : KnowledgeObject) : IngestState V :=
  let mitre_id := domainOf obj
  let metadata := metadataOf obj mitre_id
  let text_content := generate_document_text obj mitre_id
  match emb text_content with
  | none =>
    ⟨st.documents, st.metadatas, st.ids, st.embeddings, st.skips ++ [mitre_id]⟩
  | some e =>
    let uniq_id := if mitre_id ∈ st.ids then mitre_id ++ "_" ++ obj.id else mitre_id
    ⟨st.documents ++ [text_content], st.metadatas ++ [metadata],
      st.ids ++ [uniq_id], st.embeddings ++ [e], st.skips⟩

/-- The whole ingestion loop over the (already filtered) object list. -/
def ingest {V : Type} (emb : String → Option V)
    (objs : List KnowledgeObject) : IngestState V :=
  objs.foldl (ingestStep emb) ⟨[], [], [], [], []⟩

/-- The key-assignment kernel of the ingestion loop, abstracted to the
stream of (domain id, native id) pairs of successfully embedded records:
`uniq_id = mitre_id; if uniq_id in ids: uniq_id = mitre_id + "_" + obj.id;
ids.append(uniq_id)` (`process_mitre.py`, lines 155-160). -/
def resolveKeysAux (assigned : List String) : List (String × String) → List String
  | [] => []
  | (d, n) :: rest =>
    let k := if d ∈ assigned then d ++ "_" ++ n else d
    k :: resolveKeysAux (assigned ++ [k]) rest

/-- Key assignment starting from an empty run. -/
def resolveKeys (ps : List (String × String)) : List String :=
  resolveKeysAux [] ps

/-- The batch partition of the upsert loop (`process_mitre.py`,
lines 170-179): `for i in range(0, len(documents), batch_size)` with slices
`documents[i : min(i + batch_size, len(documents))]`. -/
def chunksOf {α : Type} (bs : Nat) : List α → List (List α)
  | [] => []
  | x :: xs =>
    if _h : bs = 0 then []
    else (x :: xs).take bs :: chunksOf bs ((x :: xs).drop bs)
  termination_by l => l.length
  decreasing_by
    simp only [List.length_drop, List.length_cons]
    omega

/-- The counters of the audit loop (`audit_mitre.py`, lines 31-46). -/
structure AuditResult where
  skippedTypes : Nat
  skippedRevoked : Nat
  relevant : List KnowledgeObject
deriving DecidableEq

/-- One iteration of the audit loop (`audit_mitre.py`, lines 36-46):
count a skip by type, else a skip by lifecycle flag, else keep the
object. -/
def auditStep (r : AuditResult) (o : KnowledgeObject) : AuditResult :=
  if typeAllowed o = false then ⟨r.skippedTypes + 1, r.skippedRevoked, r.relevant⟩
  else if o.revoked || o.x_mitre_deprecated then
    ⟨r.skippedTypes, r.skippedRevoked + 1, r.relevant⟩
  else ⟨r.skippedTypes, r.skippedRevoked, r.relevant ++ [o]⟩

/-- The audit pass over the whole corpus. -/
def audit (objs : List KnowledgeObject) : AuditResult :=
  objs.foldl auditStep ⟨0, 0, []⟩

/-- One formatted context block of `get_context` (`rag_chat.py`,
lines 30-31): `f"Source: {mitre_id} ({name})"` followed by a newline and
the document text. -/
def formatContextPart (doc : String) (meta : Metadata) : String :=
  ("Source: " ++ meta.mitre_id ++ " (" ++ meta.name ++ ")") ++ "\n" ++ doc

/-- Function `get_context` (`rag_chat.py`, lines 12-36).  The embedding service is
the oracle `embQ` (`none` models a raised exception, caught by the
enclosing `try` which returns `""`); the `query` call of the vector store is the
function `store`, returning the ranked `(document, metadata)` pairs. -/
def get_context {V : Type} (embQ : String → Option V)
    (store : V → Nat → List (String × Metadata))
    (query : String) (n_results : Nat) : String :=
  match embQ query with
  | none => ""
  | some query_embedding =>
    String.intercalate "\n\n---\n\n"
      ((store query_embedding n_results).map (fun p => formatContextPart p.1 p.2))

/-- The two relevant control states of the chat loop (`rag_chat.py`,
lines 53-99): waiting for user input, or terminated.  `Retrieving` and
`Generating` are transient within one iteration and are absorbed into the
turn function. -/
inductive LoopState where
  | awaitingInput
  | terminated
deriving DecidableEq

/-- One event driving the chat loop: a line of user input together with
whether the retrieval/generation of that turn raises an exception, or a
keyboard interrupt. -/
inductive TurnEvent where
  | userInput (s : String) (serveFails : Bool)
  | interrupt
deriving DecidableEq

/-- Model of the Python `str.strip()`: drop leading and trailing whitespace. -/
def pyStrip (s : String) : String :=
  String.mk (((s.data.dropWhile Char.isWhitespace).reverse.dropWhile Char.isWhitespace).reverse)

/-- Model of the Python `str.lower()`: lowercase every character. -/
def pyLower (s : String) : String :=
  String.mk (s.data.map Char.toLower)

/-- The test `user_input.lower() in [exit, quit]` (string literals) applied to the stripped
input (`rag_chat.py`, lines 55-56). -/
def isExitCmd (s : String) : Bool :=
  pyLower (pyStrip s) == "exit" || pyLower (pyStrip s) == "quit"

/-- One iteration of the chat loop (`rag_chat.py`, lines 53-99): returns
the successor state and whether an error was reported this turn.  An exit
keyword or an interrupt breaks the loop; a blank input continues; any
serving failure is caught by the `except` clause (line 98), reported, and
the loop continues. -/
def chatTurn : LoopState → TurnEvent → LoopState × Bool
  | .terminated, _ => (.terminated, false)
  | .awaitingInput, .interrupt => (.terminated, false)
  | .awaitingInput, .userInput s serveFails =>
    if isExitCmd s then (.terminated, false)
    else if pyStrip s = "" then (.awaitingInput, false)
    else (.awaitingInput, serveFails)

/-- Exit code of the audit entry point (`audit_mitre.py`) as a function of
its environment: a missing source file prints a diagnostic and `return`s
(line 26), a connection failure is caught and printed (lines 82-83), a
missing collection is caught and printed (lines 60-62); every path leaves
`main` normally, so the process exit code is 0 in all cases. -/
def auditExitCode (fileExists storeConnects collectionExists : Bool) : Nat :=
  if fileExists = false then 0
  else if storeConnects = false then 0
  else if collectionExists = false then 0
  else 0

/-- Exit code of the ingestion entry point (`process_mitre.py`):
`load_mitre_data` raises `FileNotFoundError` on a missing file (line 25)
and a store-connection failure raises out of `main` (line 166); either
uncaught exception terminates the interpreter with exit code 1; otherwise
the run completes with 0 (per-record embedding failures are caught inside
`get_embedding` and never abort). -/
def processExitCode (fileExists storeConnects : Bool) : Nat :=
  if fileExists = false then 1
  else if storeConnects = false then 1
  else 0

/-- Exit code of the serving entry point (`rag_chat.py`, lines 40-46): a
failure to connect or a missing collection is caught and answered with
`sys.exit(1)`; otherwise the loop runs until exit/quit/interrupt and the
process ends with 0. -/
def chatExitCode (storeConnects collectionExists : Bool) : Nat :=
  if storeConnects = false then 1
  else if collectionExists = false then 1
  else 0

/-- The document lines as claimed: header, underline, description, then
one optional line per field, present exactly when the corresponding
*source field* of the object is non-empty (platforms and permissions are
list fields, detection is a string field). -/
def claimedDocLines (obj : KnowledgeObject) (mitre_id : String) : List String :=
  let header := headerOf obj mitre_id
  [header, underlineOf header, "Description: " ++ obj.description.getD ""]
  ++ (if obj.x_mitre_platforms.getD [] ≠ [] then
        ["Platforms: " ++ normalize_list obj.x_mitre_platforms] else [])
  ++ (if obj.x_mitre_permissions_required.getD [] ≠ [] then
        ["Permissions Required: " ++ normalize_list obj.x_mitre_permissions_required] else [])
  ++ (if obj.x_mitre_detection.getD "" ≠ "" then
        ["Detection: " ++ obj.x_mitre_detection.getD ""] else [])

/-- The document lines with the amended condition: an optional line is
present exactly when the *normalized string value* of the corresponding
field is non-empty. -/
def amendedDocLines (obj : KnowledgeObject) (mitre_id : String) : List String :=
  let header := headerOf obj mitre_id
  [header, underlineOf header, "Description: " ++ obj.description.getD ""]
  ++ (if normalize_list obj.x_mitre_platforms ≠ "" then
        ["Platforms: " ++ normalize_list obj.x_mitre_platforms] else [])
  ++ (if normalize_list obj.x_mitre_permissions_required ≠ "" then
        ["Permissions Required: " ++ normalize_list obj.x_mitre_permissions_required] else [])
  ++ (if obj.x_mitre_detection.getD "" ≠ "" then
        ["Detection: " ++ obj.x_mitre_detection.getD ""] else [])

/-- A helper building a plain knowledge object with a given native id,
name and list of external references; all other fields empty. -/
def mkObj (nid : String) (nm : String) (refs : List ExternalRef) : KnowledgeObject :=
  ⟨nid, some "malware", some nm, none, false, false, none, none, none, refs⟩

/-- A reference carrying a given external id under the authority name. -/
def mkRef (eid : String) : ExternalRef :=
  ⟨some "mitre-attack", some eid, none⟩

/-- Concrete corpus refuting uniqueness of assigned index keys: three
records with pairwise distinct native ids whose resolved domain ids are
`"A"`, `"A_n2"`, `"A"`. -/
def collideObjs : List KnowledgeObject :=
  [mkObj "x1" "N1" [mkRef "A"], mkObj "x2" "N2" [mkRef "A_n2"],
   mkObj "n2" "N3" [mkRef "A"]]

/-- An embedding oracle that succeeds on every text with vector `0`. -/
def embAll : String → Option Nat := fun _ => some 0

/-- Two records resolving to the same domain id `"T1"` with distinct,
underscore-free native ids. -/
def dupDomObjs : List KnowledgeObject :=
  [mkObj "x1" "N1" [mkRef "T1"], mkObj "x2" "N2" [mkRef "T1"]]

/-- Concrete object whose platforms field is the non-empty list `[""]`,
which normalizes to the empty string. -/
def emptyPlatObj : KnowledgeObject :=
  ⟨"x9", some "malware", some "N9", none, false, false, some [""], none, none, []⟩

/-- Concrete three eligible objects with pairwise distinct document texts,
used to exercise the single-embedding-failure scenario. -/
def failObjs : List KnowledgeObject :=
  [mkObj "i1" "N1" [], mkObj "i2" "N2" [], mkObj "i3" "N3" []]

/-- An embedding oracle failing exactly on the text of the middle object. -/
def embFailMid : String → Option Nat :=
  fun s => if s = textOf (mkObj "i2" "N2" []) then none else some 0

/-- An object carrying a `mitre-attack` reference that lacks an
`external_id`. -/
def noEidObj : KnowledgeObject :=
  ⟨"stix--42", some "tool", some "N4", none, false, false, none, none, none,
   [⟨some "mitre-attack", none, some "https://x"⟩]⟩

/-- A store returning one fixed ranked result, for the retriever witness. -/
def oneHitStore : Nat → Nat → List (String × Metadata) :=
  fun _ _ => [("doc body", ⟨"T1055", "Process Injection", "attack-pattern", "", "", "False"⟩)]

/-- An embedding oracle that always fails. -/
def embNone : String → Option Nat := fun _ => none

/-! Theorems. -/

theorem load_mitre_data_eq_filter (objs : List KnowledgeObject) :
    load_mitre_data objs
      = objs.filter (fun o => typeAllowed o && (!o.revoked && !o.x_mitre_deprecated)) := by
  induction objs with
  | nil => rfl
  | cons o rest ih =>
    cases h1 : typeAllowed o <;> cases h2 : o.revoked <;> cases h3 : o.x_mitre_deprecated <;>
      simp [load_mitre_data, h1, h2, h3, List.filter_cons, ih]

/-- C2.  A knowledge object is in the output of the record filter iff its
type is in the allow-set and neither lifecycle flag is set, and the output
is an ordered subsequence of the input. -/
theorem record_filter_correct (objs : List KnowledgeObject) :
    (∀ o, o ∈ load_mitre_data objs ↔
      (o ∈ objs ∧ typeAllowed o = true ∧ o.revoked = false ∧ o.x_mitre_deprecated = false)) ∧
    (load_mitre_data objs).Sublist objs := by
  rw [load_mitre_data_eq_filter]
  refine ⟨fun o => ?_, List.filter_sublist objs⟩
  rw [List.mem_filter]
  simp [Bool.and_eq_true, Bool.not_eq_true', and_assoc]

theorem record_filter_correct_witness :
    mkObj "w1" "W1" [] ∈ load_mitre_data [mkObj "w1" "W1" []] :=
  (record_filter_correct [mkObj "w1" "W1" []]).1 (mkObj "w1" "W1" []) |>.mpr
    ⟨by simp, by decide, rfl, rfl⟩

theorem audit_foldl (objs : List KnowledgeObject) (r : AuditResult) :
    List.foldl auditStep r objs =
      ⟨r.skippedTypes + objs.countP (fun o => !typeAllowed o),
       r.skippedRevoked
         + objs.countP (fun o => typeAllowed o && (o.revoked || o.x_mitre_deprecated)),
       r.relevant
         ++ objs.filter (fun o => typeAllowed o && !(o.revoked || o.x_mitre_deprecated))⟩ := by
  induction objs generalizing r with
  | nil => simp
  | cons o rest ih =>
    rw [List.foldl_cons, ih]
    cases h1 : typeAllowed o <;> cases h2 : o.revoked <;> cases h3 : o.x_mitre_deprecated <;>
      simp [auditStep, h1, h2, h3, List.countP_cons, List.filter_cons] <;> omega

theorem countP_partition (objs : List KnowledgeObject) :
    objs.countP (fun o => typeAllowed o && !(o.revoked || o.x_mitre_deprecated))
      + objs.countP (fun o => !typeAllowed o)
      + objs.countP (fun o => typeAllowed o && (o.revoked || o.x_mitre_deprecated))
      = objs.length := by
  induction objs with
  | nil => rfl
  | cons o rest ih =>
    cases h1 : typeAllowed o <;> cases h2 : o.revoked <;> cases h3 : o.x_mitre_deprecated <;>
      simp [List.countP_cons, h1, h2, h3, Bool.not_or] at ih ⊢ <;> omega

/-- C3.  The audit counters are exactly the counts of the three pairwise
disjoint, exhaustive classes (type skipped, lifecycle skipped, included),
and total corpus size equals their sum. -/
theorem counting_invariant (objs : List KnowledgeObject) :
    (audit objs).skippedTypes = objs.countP (fun o => !typeAllowed o) ∧
    (audit objs).skippedRevoked
      = objs.countP (fun o => typeAllowed o && (o.revoked || o.x_mitre_deprecated)) ∧
    (audit objs).relevant.length
      = objs.countP (fun o => typeAllowed o && !(o.revoked || o.x_mitre_deprecated)) ∧
    objs.length = (audit objs).relevant.length + (audit objs).skippedTypes
      + (audit objs).skippedRevoked ∧
    (∀ o : KnowledgeObject,
      ((!typeAllowed o).toNat
        + (typeAllowed o && (o.revoked || o.x_mitre_deprecated)).toNat
        + (typeAllowed o && !(o.revoked || o.x_mitre_deprecated)).toNat = 1)) := by
  have h := audit_foldl objs ⟨0, 0, []⟩
  have hT : (audit objs).skippedTypes = objs.countP (fun o => !typeAllowed o) := by
    rw [audit, h]; simp
  have hR : (audit objs).skippedRevoked
      = objs.countP (fun o => typeAllowed o && (o.revoked || o.x_mitre_deprecated)) := by
    rw [audit, h]; simp
  have hI : (audit objs).relevant.length
      = objs.countP (fun o => typeAllowed o && !(o.revoked || o.x_mitre_deprecated)) := by
    rw [audit, h]; simp [List.countP_eq_length_filter]
  refine ⟨hT, hR, hI, ?_, ?_⟩
  · rw [hT, hR, hI]
    have := countP_partition objs
    omega
  · intro o
    cases h1 : typeAllowed o <;> cases h2 : o.revoked <;> cases h3 : o.x_mitre_deprecated <;>
      simp [h1, h2, h3]

/-- C8.  A serving failure is caught: a non-exit input leaves the loop in
`awaitingInput` whatever the turn outcome; a failing non-blank serving
turn reports the error; and the loop terminates only on an interrupt or an
exit keyword. -/
theorem chat_loop_liveness :
    (∀ s fails, isExitCmd s = false →
      (chatTurn .awaitingInput (.userInput s fails)).1 = .awaitingInput) ∧
    (∀ s, isExitCmd s = false → pyStrip s ≠ "" →
      (chatTurn .awaitingInput (.userInput s true)).2 = true) ∧
    (∀ ev, (chatTurn .awaitingInput ev).1 = .terminated →
      ev = .interrupt ∨ ∃ s fails, ev = .userInput s fails ∧ isExitCmd s = true) := by
  refine ⟨fun s fails h => ?_, fun s h h2 => ?_, fun ev h => ?_⟩
  · by_cases h2 : pyStrip s = "" <;> simp [chatTurn, h, h2]
  · simp [chatTurn, h, h2]
  · cases ev with
    | interrupt => exact Or.inl rfl
    | userInput s fails =>
      by_cases he : isExitCmd s
      · exact Or.inr ⟨s, fails, rfl, he⟩
      · exfalso
        by_cases h2 : pyStrip s = "" <;>
          simp [chatTurn, he, h2] at h

theorem chat_loop_liveness_witness :
    (chatTurn .awaitingInput (.userInput "hello" true)).1 = .awaitingInput ∧
    (chatTurn .awaitingInput (.userInput "hello" true)).2 = true :=
  ⟨chat_loop_liveness.1 "hello" true (by decide),
   chat_loop_liveness.2.1 "hello" (by decide) (by decide)⟩

/-- C9 counterexample.  The audit entry point exits with code 0, not 1,
when the knowledge-base file is missing (it prints a diagnostic and
returns normally). -/
theorem exit_code_cex :
    auditExitCode false true true = 0 ∧ ¬ auditExitCode false true true = 1 := by
  decide

/-- C9 amended.  The ingestion and serving entry points exit 1 on their
unrecoverable setup failures and 0 on normal completion, while the audit
entry point always exits 0, reporting failures only as printed
diagnostics. -/
theorem exit_code_amended :
    (∀ s, processExitCode false s = 1) ∧
    processExitCode true false = 1 ∧
    processExitCode true true = 0 ∧
    (∀ c, chatExitCode false c = 1) ∧
    chatExitCode true false = 1 ∧
    chatExitCode true true = 0 ∧
    (∀ f s c, auditExitCode f s c = 0) := by
  decide

/-- C7.  A failed query embedding yields the empty context block, and a
successful one yields the results of the store in rank order, each formatted as
`Source: <domain_id> (<name>)` plus the document, joined with the fixed
separator. -/
theorem retriever_degradation {V : Type} (embQ : String → Option V)
    (store : V → Nat → List (String × Metadata)) (q : String) (k : Nat) :
    (embQ q = none → get_context embQ store q k = "") ∧
    (∀ qe, embQ q = some qe → get_context embQ store q k =
      String.intercalate "\n\n---\n\n"
        ((store qe k).map
          (fun p => "Source: " ++ p.2.mitre_id ++ " (" ++ p.2.name ++ ")" ++ "\n" ++ p.1))) := by
  refine ⟨fun h => ?_, fun qe h => ?_⟩
  · simp [get_context, h]
  · simp [get_context, h, formatContextPart]

theorem retriever_degradation_witness :
    get_context embNone oneHitStore "q" 3 = "" ∧
    get_context embAll oneHitStore "q" 3 =
      String.intercalate "\n\n---\n\n"
        ((oneHitStore 0 3).map
          (fun p => "Source: " ++ p.2.mitre_id ++ " (" ++ p.2.name ++ ")" ++ "\n" ++ p.1)) :=
  ⟨(retriever_degradation embNone oneHitStore "q" 3).1 rfl,
   (retriever_degradation embAll oneHitStore "q" 3).2 0 rfl⟩

/-- C10.  `extract_mitre_id` returns the `external_id` (default
`"UNKNOWN"`) of the first reference in list order whose `source_name` is
`"mitre-attack"`; with no match it returns `"UNKNOWN"`; and whenever
extraction yields `"UNKNOWN"` the pipeline keys the object by its native
id. -/
theorem domain_id_extraction (refs pre post : List ExternalRef)
    (r : ExternalRef) (o : KnowledgeObject) :
    (r.source_name = some "mitre-attack" →
      (∀ q ∈ pre, q.source_name ≠ some "mitre-attack") →
      extract_mitre_id (pre ++ r :: post) = r.external_id.getD "UNKNOWN") ∧
    ((∀ q ∈ refs, q.source_name ≠ some "mitre-attack") →
      extract_mitre_id refs = "UNKNOWN") ∧
    (extract_mitre_id o.external_references = "UNKNOWN" → domainOf o = o.id) := by
  refine ⟨fun hr hpre => ?_, fun hnone => ?_, fun hu => ?_⟩
  · have hfind : (pre ++ r :: post).find?
        (fun x => x.source_name == some "mitre-attack") = some r := by
      induction pre with
      | nil => simp [List.find?_cons, hr]
      | cons a rest ih =>
        have ha : a.source_name ≠ some "mitre-attack" := hpre a (by simp)
        have ha' : (a.source_name == some "mitre-attack") = false := by
          simpa using ha
        simp only [List.cons_append, List.find?_cons, ha']
        exact ih (fun q hq => hpre q (by simp [hq]))
    simp [extract_mitre_id, hfind]
  · have hfind : refs.find? (fun x => x.source_name == some "mitre-attack") = none := by
      rw [List.find?_eq_none]
      intro a ha
      simpa using hnone a ha
    simp [extract_mitre_id, hfind]
  · simp [domainOf, hu]

theorem domain_id_extraction_witness :
    extract_mitre_id ([] ++ mkRef "T1055" :: []) = (mkRef "T1055").external_id.getD "UNKNOWN" ∧
    extract_mitre_id [] = "UNKNOWN" ∧
    domainOf noEidObj = noEidObj.id :=
  ⟨(domain_id_extraction [] [] [] (mkRef "T1055") noEidObj).1 rfl (by simp),
   (domain_id_extraction [] [] [] (mkRef "T1055") noEidObj).2.1 (by simp),
   (domain_id_extraction [] [] [] (mkRef "T1055") noEidObj).2.2 rfl⟩

theorem chunksOf_nil {α : Type} (bs : Nat) : chunksOf bs ([] : List α) = [] := by
  simp [chunksOf]

theorem chunksOf_cons_pos {α : Type} (bs : Nat) (hbs : bs ≠ 0) (x : α) (xs : List α) :
    chunksOf bs (x :: xs) = (x :: xs).take bs :: chunksOf bs ((x :: xs).drop bs) := by
  rw [chunksOf]
  simp [hbs]

theorem chunksOf_ne_nil {α : Type} (bs : Nat) (hbs : bs ≠ 0) (l : List α) (hl : l ≠ []) :
    chunksOf bs l = l.take bs :: chunksOf bs (l.drop bs) := by
  cases l with
  | nil => exact absurd rfl hl
  | cons x xs => exact chunksOf_cons_pos bs hbs x xs

theorem chunksOf_flatten_aux {α : Type} (bs : Nat) (hbs : bs ≠ 0) :
    ∀ (n : Nat) (l : List α), l.length ≤ n → (chunksOf bs l).flatten = l := by
  intro n
  induction n with
  | zero =>
    intro l hl
    have h0 : l = [] := List.eq_nil_of_length_eq_zero (Nat.le_zero.mp hl)
    subst h0
    simp [chunksOf]
  | succ n ih =>
    intro l hl
    cases l with
    | nil => simp [chunksOf]
    | cons x xs =>
      rw [chunksOf_cons_pos bs hbs x xs, List.flatten_cons,
        ih ((x :: xs).drop bs) ?_, List.take_append_drop]
      simp only [List.length_drop, List.length_cons]
      simp only [List.length_cons] at hl
      omega

theorem chunksOf_flatten {α : Type} (bs : Nat) (hbs : bs ≠ 0) (l : List α) :
    (chunksOf bs l).flatten = l :=
  chunksOf_flatten_aux bs hbs l.length l le_rfl

/-- C5.  With batch size 100 and 250 records the Batch Indexer issues
exactly the three chunks covering indices [0,100), [100,200), [200,250),
and in general the upserted chunks concatenate back to the input list, so
each record lies in exactly one chunk, in order. -/
theorem batch_partitioning {α : Type} (l : List α) (h : l.length = 250) :
    chunksOf 100 l = [l.take 100, (l.drop 100).take 100, (l.drop 100).drop 100] ∧
    (chunksOf 100 l).map List.length = [100, 100, 50] ∧
    (chunksOf 100 l).flatten = l := by
  have h0 : l ≠ [] := by
    intro he
    rw [he] at h
    simp at h
  have h1 : (l.drop 100).length = 150 := by simp [h]
  have h2 : ((l.drop 100).drop 100).length = 50 := by simp [h]
  have hne1 : l.drop 100 ≠ [] := by
    intro he
    rw [he] at h1
    simp at h1
  have hne2 : (l.drop 100).drop 100 ≠ [] := by
    intro he
    rw [he] at h2
    simp at h2
  have hshape : chunksOf 100 l
      = [l.take 100, (l.drop 100).take 100, (l.drop 100).drop 100] := by
    rw [chunksOf_ne_nil 100 (by omega) l h0,
      chunksOf_ne_nil 100 (by omega) (l.drop 100) hne1,
      chunksOf_ne_nil 100 (by omega) ((l.drop 100).drop 100) hne2]
    have hd3 : ((l.drop 100).drop 100).drop 100 = [] := List.drop_eq_nil_of_le (by omega)
    have ht3 : ((l.drop 100).drop 100).take 100 = (l.drop 100).drop 100 :=
      List.take_of_length_le (by omega)
    rw [hd3, ht3, chunksOf_nil]
  refine ⟨hshape, ?_, chunksOf_flatten 100 (by omega) l⟩
  rw [hshape]
  simp [List.length_take, List.length_drop, h]

theorem batch_partitioning_witness :
    (chunksOf 100 (List.replicate 250 (0 : Nat))).map List.length = [100, 100, 50] :=
  (batch_partitioning (List.replicate 250 0) (by rw [List.length_replicate])).2.1

/-- C6 counterexample.  For an object whose `x_mitre_platforms` is the
non-empty list `[""]` the synthesized text has no platforms line, although
the source field is non-empty: the claimed shape (optional line present
iff the source field is non-empty) does not match the code. -/
theorem document_shape_cex :
    generate_document_text emptyPlatObj "T1"
      ≠ String.intercalate "\n\n" (claimedDocLines emptyPlatObj "T1") := by
  decide

/-- C6 amended.  The synthesized text is the header line, an underline of
the same length, the description line, and one optional line per field,
present exactly when the normalized string value of the field is non-empty. -/
theorem document_shape_amended (obj : KnowledgeObject) (mitre_id : String) :
    generate_document_text obj mitre_id
      = String.intercalate "\n\n" (amendedDocLines obj mitre_id) ∧
    (underlineOf (headerOf obj mitre_id)).length = (headerOf obj mitre_id).length := by
  constructor
  · rfl
  · simp only [underlineOf]
    exact List.length_replicate _ _

theorem underscore_mem_composite (d n : String) : '_' ∈ (d ++ "_" ++ n).data := by
  simp [String.data_append]

theorem composite_ne_noUS (d n s : String) (hs : '_' ∉ s.data) : d ++ "_" ++ n ≠ s := by
  intro h
  apply hs
  rw [← h]
  exact underscore_mem_composite d n

theorem split_at_uniq_char :
    ∀ (a b c e : List Char), '_' ∉ a → '_' ∉ c →
      a ++ '_' :: b = c ++ '_' :: e → a = c ∧ b = e := by
  intro a
  induction a with
  | nil =>
    intro b c e _ hc h
    cases c with
    | nil =>
      simp only [List.nil_append] at h
      exact ⟨rfl, (List.cons.injEq _ _ _ _ ▸ h).2⟩
    | cons y ys =>
      exfalso
      simp only [List.nil_append, List.cons_append, List.cons.injEq] at h
      exact hc (h.1 ▸ List.mem_cons_self y ys)
  | cons x xs ih =>
    intro b c e ha hc h
    cases c with
    | nil =>
      exfalso
      simp only [List.cons_append, List.nil_append, List.cons.injEq] at h
      exact ha (h.1 ▸ List.mem_cons_self x xs)
    | cons y ys =>
      simp only [List.cons_append, List.cons.injEq] at h
      have ha' : '_' ∉ xs := fun hm => ha (List.mem_cons_of_mem x hm)
      have hc' : '_' ∉ ys := fun hm => hc (List.mem_cons_of_mem y hm)
      obtain ⟨h1, h2⟩ := ih b ys e ha' hc' h.2
      exact ⟨by rw [h.1, h1], h2⟩

theorem composite_inj (d n d' n' : String)
    (hd : '_' ∉ d.data) (_hn : '_' ∉ n.data)
    (hd' : '_' ∉ d'.data) (_hn' : '_' ∉ n'.data)
    (h : d ++ "_" ++ n = d' ++ "_" ++ n') : d = d' ∧ n = n' := by
  have hdata : (d ++ "_" ++ n).data = (d' ++ "_" ++ n').data := by rw [h]
  have h1 : d.data ++ '_' :: n.data = d'.data ++ '_' :: n'.data := by
    simpa [String.data_append] using hdata
  obtain ⟨h2, h3⟩ := split_at_uniq_char d.data n.data d'.data n'.data hd hd' h1
  exact ⟨String.ext h2, String.ext h3⟩

theorem resolveKeysAux_length (assigned : List String) (ps : List (String × String)) :
    (resolveKeysAux assigned ps).length = ps.length := by
  induction ps generalizing assigned with
  | nil => rfl
  | cons p rest ih =>
    obtain ⟨d, n⟩ := p
    simp [resolveKeysAux, ih]

theorem resolveKeysAux_shape (assigned : List String) (ps : List (String × String)) :
    ∀ k ∈ resolveKeysAux assigned ps,
      (∃ p ∈ ps, k = p.1) ∨ (∃ p ∈ ps, k = p.1 ++ "_" ++ p.2) := by
  induction ps generalizing assigned with
  | nil => intro k hk; simp [resolveKeysAux] at hk
  | cons p rest ih =>
    intro k hk
    obtain ⟨d, n⟩ := p
    simp only [resolveKeysAux] at hk
    rcases List.mem_cons.mp hk with h | h
    · by_cases hd : d ∈ assigned
      · right
        refine ⟨(d, n), List.mem_cons_self _ _, ?_⟩
        rw [if_pos hd] at h
        exact h
      · left
        refine ⟨(d, n), List.mem_cons_self _ _, ?_⟩
        rw [if_neg hd] at h
        exact h
    · rcases ih _ k h with ⟨q, hq, he⟩ | ⟨q, hq, he⟩
      · exact Or.inl ⟨q, List.mem_cons_of_mem _ hq, he⟩
      · exact Or.inr ⟨q, List.mem_cons_of_mem _ hq, he⟩

theorem resolveKeysAux_domain_covered (ps : List (String × String)) :
    ∀ (assigned : List String) (p : String × String), p ∈ ps →
      p.1 ∈ assigned ∨ p.1 ∈ resolveKeysAux assigned ps := by
  induction ps with
  | nil => intro _ p hp; simp at hp
  | cons q rest ih =>
    intro assigned p hp
    obtain ⟨d, n⟩ := q
    rcases List.mem_cons.mp hp with h | h
    · subst h
      by_cases hd : d ∈ assigned
      · exact Or.inl hd
      · right
        simp [resolveKeysAux, hd]
    · rcases ih (assigned ++ [if d ∈ assigned then d ++ "_" ++ n else d]) p h with h2 | h2
      · rcases List.mem_append.mp h2 with h3 | h3
        · exact Or.inl h3
        · right
          simp only [List.mem_singleton] at h3
          simp [resolveKeysAux, h3]
      · right
        simp only [resolveKeysAux]
        exact List.mem_cons_of_mem _ h2

theorem resolveKeysAux_append (assigned : List String) (xs ys : List (String × String)) :
    resolveKeysAux assigned (xs ++ ys)
      = resolveKeysAux assigned xs
        ++ resolveKeysAux (assigned ++ resolveKeysAux assigned xs) ys := by
  induction xs generalizing assigned with
  | nil => simp [resolveKeysAux]
  | cons p rest ih =>
    obtain ⟨d, n⟩ := p
    rw [List.cons_append]
    simp only [resolveKeysAux]
    rw [ih]
    simp [List.append_assoc]

theorem resolveKeysAux_nodup (ps : List (String × String)) :
    ∀ assigned : List String,
      (ps.map Prod.snd).Nodup →
      (∀ p ∈ ps, '_' ∉ p.1.data ∧ '_' ∉ p.2.data) →
      assigned.Nodup →
      (∀ k ∈ assigned, '_' ∉ k.data ∨
        ∃ d n, k = d ++ "_" ++ n ∧ '_' ∉ d.data ∧ '_' ∉ n.data ∧ n ∉ ps.map Prod.snd) →
      (assigned ++ resolveKeysAux assigned ps).Nodup := by
  induction ps with
  | nil =>
    intro assigned _ _ ha _
    simpa [resolveKeysAux] using ha
  | cons q rest ih =>
    intro assigned hnat hus ha hinv
    obtain ⟨d, n⟩ := q
    have hdus : '_' ∉ d.data := (hus (d, n) (List.mem_cons_self _ _)).1
    have hnus : '_' ∉ n.data := (hus (d, n) (List.mem_cons_self _ _)).2
    have hnat' : (rest.map Prod.snd).Nodup := by
      simpa using hnat.of_cons
    have hnnotin : n ∉ rest.map Prod.snd := by
      have := hnat
      simp only [List.map_cons, List.nodup_cons] at this
      exact this.1
    have hus' : ∀ p ∈ rest, '_' ∉ p.1.data ∧ '_' ∉ p.2.data :=
      fun p hp => hus p (List.mem_cons_of_mem _ hp)
    by_cases hd : d ∈ assigned
    · have hk_notin : (d ++ "_" ++ n) ∉ assigned := by
        intro hmem
        rcases hinv _ hmem with h | ⟨d', n', he, hd', hn', hnn⟩
        · exact h (underscore_mem_composite d n)
        · obtain ⟨_, hne⟩ := composite_inj d n d' n' hdus hnus hd' hn' he
          exact hnn (hne ▸ List.mem_cons_self n (rest.map Prod.snd) :
            n' ∈ (d, n).2 :: rest.map Prod.snd)
      have step : resolveKeysAux assigned ((d, n) :: rest)
          = (d ++ "_" ++ n) :: resolveKeysAux (assigned ++ [d ++ "_" ++ n]) rest := by
        simp [resolveKeysAux, hd]
      rw [step, show assigned ++ (d ++ "_" ++ n)
            :: resolveKeysAux (assigned ++ [d ++ "_" ++ n]) rest
          = (assigned ++ [d ++ "_" ++ n])
            ++ resolveKeysAux (assigned ++ [d ++ "_" ++ n]) rest by simp]
      apply ih (assigned ++ [d ++ "_" ++ n]) hnat' hus'
      · rw [List.nodup_append]
        refine ⟨ha, List.nodup_singleton _, ?_⟩
        intro a haa hak
        simp only [List.mem_singleton] at hak
        exact hk_notin (hak ▸ haa)
      · intro k hk
        rcases List.mem_append.mp hk with h | h
        · rcases hinv k h with h2 | ⟨d', n', he, hd', hn', hnn⟩
          · exact Or.inl h2
          · refine Or.inr ⟨d', n', he, hd', hn', fun hm => hnn ?_⟩
            exact List.mem_cons_of_mem _ hm
        · simp only [List.mem_singleton] at h
          exact Or.inr ⟨d, n, h, hdus, hnus, hnnotin⟩
    · have step : resolveKeysAux assigned ((d, n) :: rest)
          = d :: resolveKeysAux (assigned ++ [d]) rest := by
        simp [resolveKeysAux, hd]
      rw [step, show assigned ++ d :: resolveKeysAux (assigned ++ [d]) rest
          = (assigned ++ [d]) ++ resolveKeysAux (assigned ++ [d]) rest by simp]
      apply ih (assigned ++ [d]) hnat' hus'
      · rw [List.nodup_append]
        refine ⟨ha, List.nodup_singleton _, ?_⟩
        intro a haa hak
        simp only [List.mem_singleton] at hak
        exact hd (hak ▸ haa)
      · intro k hk
        rcases List.mem_append.mp hk with h | h
        · rcases hinv k h with h2 | ⟨d', n', he, hd', hn', hnn⟩
          · exact Or.inl h2
          · refine Or.inr ⟨d', n', he, hd', hn', fun hm => hnn ?_⟩
            exact List.mem_cons_of_mem _ hm
        · simp only [List.mem_singleton] at h
          exact Or.inl (h ▸ hdus)

theorem resolveKeys_nodup (ps : List (String × String))
    (hnat : (ps.map Prod.snd).Nodup)
    (hus : ∀ p ∈ ps, '_' ∉ p.1.data ∧ '_' ∉ p.2.data) :
    (resolveKeys ps).Nodup := by
  have h := resolveKeysAux_nodup ps [] hnat hus List.nodup_nil (by simp)
  simpa [resolveKeys] using h

theorem resolveKeys_first_bare (pre : List (String × String)) (d n : String)
    (post : List (String × String))
    (hfirst : ∀ p ∈ pre, p.1 ≠ d)
    (hd_us : '_' ∉ d.data) :
    (resolveKeys (pre ++ (d, n) :: post))[pre.length]? = some d := by
  rw [resolveKeys, resolveKeysAux_append]
  have hlen : (resolveKeysAux [] pre).length = pre.length := resolveKeysAux_length _ _
  rw [List.getElem?_append_right (le_of_eq hlen), hlen, Nat.sub_self]
  have hd_not : d ∉ [] ++ resolveKeysAux [] pre := by
    simp only [List.nil_append]
    intro hmem
    rcases resolveKeysAux_shape [] pre d hmem with ⟨p, hp, he⟩ | ⟨p, hp, he⟩
    · exact hfirst p hp he.symm
    · exact composite_ne_noUS p.1 p.2 d hd_us he.symm
  simp only [resolveKeysAux]
  rw [if_neg hd_not]
  simp

theorem resolveKeys_subsequent_composite (pre : List (String × String)) (d n : String)
    (post : List (String × String))
    (hdup : ∃ p ∈ pre, p.1 = d) :
    (resolveKeys (pre ++ (d, n) :: post))[pre.length]? = some (d ++ "_" ++ n) := by
  rw [resolveKeys, resolveKeysAux_append]
  have hlen : (resolveKeysAux [] pre).length = pre.length := resolveKeysAux_length _ _
  rw [List.getElem?_append_right (le_of_eq hlen), hlen, Nat.sub_self]
  obtain ⟨p, hp, hpd⟩ := hdup
  have hmem : d ∈ [] ++ resolveKeysAux [] pre := by
    simp only [List.nil_append]
    rcases resolveKeysAux_domain_covered pre [] p hp with h | h
    · simp at h
    · exact hpd ▸ h
  simp only [resolveKeysAux]
  rw [if_pos hmem]
  simp

theorem ingest_foldl {V : Type} (emb : String → Option V) (objs : List KnowledgeObject) :
    ∀ st : IngestState V,
      List.foldl (ingestStep emb) st objs =
        ⟨st.documents ++ (objs.filter (fun o => (emb (textOf o)).isSome)).map textOf,
         st.metadatas ++ (objs.filter (fun o => (emb (textOf o)).isSome)).map
           (fun o => metadataOf o (domainOf o)),
         st.ids ++ resolveKeysAux st.ids
           ((objs.filter (fun o => (emb (textOf o)).isSome)).map (fun o => (domainOf o, o.id))),
         st.embeddings ++ objs.filterMap (fun o => emb (textOf o)),
         st.skips ++ (objs.filter (fun o => (emb (textOf o)).isNone)).map domainOf⟩ := by
  induction objs with
  | nil =>
    intro st
    simp [resolveKeysAux]
  | cons o rest ih =>
    intro st
    rw [List.foldl_cons]
    cases he : emb (textOf o) with
    | none =>
      have hstep : ingestStep emb st o
          = ⟨st.documents, st.metadatas, st.ids, st.embeddings, st.skips ++ [domainOf o]⟩ := by
        simp only [ingestStep]
        rw [show emb (generate_document_text o (domainOf o)) = none from he]
      rw [hstep, ih]
      have hfs : (emb (textOf o)).isSome = false := by rw [he]; rfl
      have hfn : (emb (textOf o)).isNone = true := by rw [he]; rfl
      simp [List.filter_cons, List.filterMap_cons, hfs, hfn, he, List.append_assoc]
    | some e =>
      have hstep : ingestStep emb st o
          = ⟨st.documents ++ [textOf o], st.metadatas ++ [metadataOf o (domainOf o)],
             st.ids ++ [if domainOf o ∈ st.ids then domainOf o ++ "_" ++ o.id else domainOf o],
             st.embeddings ++ [e], st.skips⟩ := by
        simp only [ingestStep]
        rw [show emb (generate_document_text o (domainOf o)) = some e from he]
        rfl
      rw [hstep, ih]
      have hfs : (emb (textOf o)).isSome = true := by rw [he]; rfl
      have hfn : (emb (textOf o)).isNone = false := by rw [he]; rfl
      simp only [List.filter_cons, List.filterMap_cons, hfs, hfn, he,
        cond_true, cond_false, List.map_cons]
      simp [resolveKeysAux, List.append_assoc]

theorem ingest_eq {V : Type} (emb : String → Option V) (objs : List KnowledgeObject) :
    ingest emb objs =
      ⟨(objs.filter (fun o => (emb (textOf o)).isSome)).map textOf,
       (objs.filter (fun o => (emb (textOf o)).isSome)).map (fun o => metadataOf o (domainOf o)),
       resolveKeys ((objs.filter (fun o => (emb (textOf o)).isSome)).map
         (fun o => (domainOf o, o.id))),
       objs.filterMap (fun o => emb (textOf o)),
       (objs.filter (fun o => (emb (textOf o)).isNone)).map domainOf⟩ := by
  rw [ingest, ingest_foldl]
  simp [resolveKeys]

theorem length_filterMap_of_isSome {α β : Type} (f : α → Option β) :
    ∀ l : List α, (∀ a ∈ l, (f a).isSome = true) → (l.filterMap f).length = l.length := by
  intro l
  induction l with
  | nil => intro _; rfl
  | cons a rest ih =>
    intro h
    cases hfa : f a with
    | none =>
      exact absurd (h a (List.mem_cons_self _ _)) (by rw [hfa]; simp)
    | some b =>
      simp [List.filterMap_cons, hfa,
        ih (fun x hx => h x (List.mem_cons_of_mem _ hx))]

/-- C1 counterexample.  Three records with pairwise distinct native ids
(`"x1"`, `"x2"`, `"n2"`) whose domain ids are `"A"`, `"A_n2"`, `"A"`: the
assigned keys are `["A", "A_n2", "A_n2"]` — not pairwise distinct, because
the composite key of the third record collides with the bare key of the
second, despite globally unique native ids. -/
theorem identity_resolution_cex :
    (collideObjs.map KnowledgeObject.id).Nodup ∧
    (ingest embAll collideObjs).ids = ["A", "A_n2", "A_n2"] ∧
    ¬ (ingest embAll collideObjs).ids.Nodup := by
  decide

/-- C1 amended.  Provided native ids are globally unique and no domain id
or native id contains an underscore, the assigned index keys of a run are
pairwise distinct; the first successfully embedded record with a given
domain id gets the bare id and every subsequent one the composite
`domain_id ++ "_" ++ native_id`. -/
theorem identity_resolution {V : Type} (emb : String → Option V)
    (objs : List KnowledgeObject)
    (hnat : (objs.map KnowledgeObject.id).Nodup)
    (hus : ∀ o ∈ objs, '_' ∉ (domainOf o).data ∧ '_' ∉ o.id.data) :
    (ingest emb objs).ids.Nodup ∧
    (∀ pre o post,
      objs.filter (fun x => (emb (textOf x)).isSome) = pre ++ o :: post →
      ((∀ q ∈ pre, domainOf q ≠ domainOf o) →
        (ingest emb objs).ids[pre.length]? = some (domainOf o)) ∧
      ((∃ q ∈ pre, domainOf q = domainOf o) →
        (ingest emb objs).ids[pre.length]? = some (domainOf o ++ "_" ++ o.id))) := by
  have hids : (ingest emb objs).ids
      = resolveKeys ((objs.filter (fun o => (emb (textOf o)).isSome)).map
          (fun o => (domainOf o, o.id))) := by
    rw [ingest_eq]
  have hsub : (objs.filter (fun o => (emb (textOf o)).isSome)).Sublist objs :=
    List.filter_sublist objs
  have hmem_objs : ∀ q ∈ objs.filter (fun o => (emb (textOf o)).isSome), q ∈ objs :=
    fun q hq => hsub.subset hq
  constructor
  · rw [hids]
    apply resolveKeys_nodup
    · have hmap : (((objs.filter (fun o => (emb (textOf o)).isSome)).map
          (fun o => (domainOf o, o.id))).map Prod.snd)
          = (objs.filter (fun o => (emb (textOf o)).isSome)).map KnowledgeObject.id := by
        rw [List.map_map]
        rfl
      rw [hmap]
      exact hnat.sublist (hsub.map KnowledgeObject.id)
    · intro p hp
      obtain ⟨q, hq, rfl⟩ := List.mem_map.mp hp
      exact hus q (hmem_objs q hq)
  · intro pre o post heq
    have hpremem : ∀ q ∈ pre, q ∈ objs := by
      intro q hq
      apply hmem_objs
      rw [heq]
      exact List.mem_append_left _ hq
    have homem : o ∈ objs := by
      apply hmem_objs
      rw [heq]
      exact List.mem_append_right _ (List.mem_cons_self _ _)
    have hmape : ((objs.filter (fun x => (emb (textOf x)).isSome)).map
          (fun x => (domainOf x, x.id)))
        = pre.map (fun x => (domainOf x, x.id))
          ++ (domainOf o, o.id) :: post.map (fun x => (domainOf x, x.id)) := by
      rw [heq]
      simp
    have hlenp : (pre.map (fun x => (domainOf x, x.id))).length = pre.length :=
      List.length_map _ _
    constructor
    · intro hfirst
      rw [hids, hmape, ← hlenp]
      apply resolveKeys_first_bare
      · intro p hp
        obtain ⟨q, hq, rfl⟩ := List.mem_map.mp hp
        exact hfirst q hq
      · exact (hus o homem).1
    · intro hdup
      rw [hids, hmape, ← hlenp]
      apply resolveKeys_subsequent_composite
      obtain ⟨q, hq, hqd⟩ := hdup
      exact ⟨(domainOf q, q.id), List.mem_map_of_mem _ hq, hqd⟩

theorem identity_resolution_witness : (ingest embAll dupDomObjs).ids.Nodup :=
  (identity_resolution embAll dupDomObjs (by decide) (by decide)).1

/-- C4.  If the embedding call fails for exactly one of the eligible
records and succeeds for the others, the run hands exactly N−1 documents
to the Batch Indexer (whose chunks flatten back to all N−1 of them, so
all are written), assigns N−1 keys and keeps N−1 vectors, drops the failed
record entirely, and reports exactly one skip carrying the domain id of
that record. -/
theorem embedding_failure_skip {V : Type} (emb : String → Option V)
    (pre post : List KnowledgeObject) (bad : KnowledgeObject)
    (hbad : emb (textOf bad) = none)
    (hpre : ∀ o ∈ pre, (emb (textOf o)).isSome = true)
    (hpost : ∀ o ∈ post, (emb (textOf o)).isSome = true) :
    (ingest emb (pre ++ bad :: post)).documents.length = (pre ++ bad :: post).length - 1 ∧
    (ingest emb (pre ++ bad :: post)).embeddings.length = (pre ++ bad :: post).length - 1 ∧
    (ingest emb (pre ++ bad :: post)).ids.length = (pre ++ bad :: post).length - 1 ∧
    ((chunksOf 100 (ingest emb (pre ++ bad :: post)).documents).flatten).length
      = (pre ++ bad :: post).length - 1 ∧
    (ingest emb (pre ++ bad :: post)).skips = [domainOf bad] := by
  have hbs : (emb (textOf bad)).isSome = false := by rw [hbad]; rfl
  have hfilter : (pre ++ bad :: post).filter (fun o => (emb (textOf o)).isSome)
      = pre ++ post := by
    rw [List.filter_append, List.filter_cons]
    rw [List.filter_eq_self.mpr hpre, List.filter_eq_self.mpr hpost]
    simp [hbs]
  have hfilterN : (pre ++ bad :: post).filter (fun o => (emb (textOf o)).isNone)
      = [bad] := by
    rw [List.filter_append, List.filter_cons]
    have hpreN : pre.filter (fun o => (emb (textOf o)).isNone) = [] := by
      rw [List.filter_eq_nil_iff]
      intro o ho
      have := hpre o ho
      cases hfo : emb (textOf o) with
      | none => rw [hfo] at this; simp at this
      | some v => simp [hfo]
    have hpostN : post.filter (fun o => (emb (textOf o)).isNone) = [] := by
      rw [List.filter_eq_nil_iff]
      intro o ho
      have := hpost o ho
      cases hfo : emb (textOf o) with
      | none => rw [hfo] at this; simp at this
      | some v => simp [hfo]
    rw [hpreN, hpostN]
    simp [hbad]
  have hlen : (pre ++ bad :: post).length - 1 = pre.length + post.length := by
    simp only [List.length_append, List.length_cons]
    omega
  have hemb : ((pre ++ bad :: post).filterMap (fun o => emb (textOf o))).length
      = pre.length + post.length := by
    rw [List.filterMap_append, List.filterMap_cons, hbad]
    rw [List.length_append, length_filterMap_of_isSome _ pre hpre,
      length_filterMap_of_isSome _ post hpost]
  rw [ingest_eq]
  refine ⟨?_, ?_, ?_, ?_, ?_⟩
  · simp [hfilter, hlen]
  · rw [hemb, hlen]
  · simp only [hfilter]
    rw [resolveKeys, resolveKeysAux_length, List.length_map, List.length_append, hlen]
  · rw [chunksOf_flatten 100 (by omega)]
    simp [hfilter, hlen]
  · simp [hfilterN]

theorem embedding_failure_skip_witness :
    (ingest embFailMid ([mkObj "i1" "N1" []] ++ mkObj "i2" "N2" [] :: [mkObj "i3" "N3" []])).skips
      = [domainOf (mkObj "i2" "N2" [])] ∧
    (ingest embFailMid
      ([mkObj "i1" "N1" []] ++ mkObj "i2" "N2" [] :: [mkObj "i3" "N3" []])).documents.length
      = ([mkObj "i1" "N1" []] ++ mkObj "i2" "N2" [] :: [mkObj "i3" "N3" []]).length - 1 :=
  ⟨(embedding_failure_skip embFailMid [mkObj "i1" "N1" []] [mkObj "i3" "N3" []]
      (mkObj "i2" "N2" []) (by decide) (by decide) (by decide)).2.2.2.2,
   (embedding_failure_skip embFailMid [mkObj "i1" "N1" []] [mkObj "i3" "N3" []]
      (mkObj "i2" "N2" []) (by decide) (by decide) (by decide)).1⟩

end AISOC
